import Mathlib

/-!
Verification development for the graphrag-exam-evaluation repository.

The backend correction engine (`math_correction_service.py`) is documented in
the repository README through a Python excerpt of
`MathCorrectionService.correct_question` and through the CORRECTION WORKFLOW
and STORE CORRECTION RESULTS diagrams; the routing and graph-write embeddings
below follow those documented operations.  The answer normalizer, the
deterministic evaluator stages, the semantic-agent boundary and the
similar-question retrieval are not present in the sources; their definitions
are modelled from the specification and are marked as such in their doc
comments.  The frontend embeddings (exam total points, submissions filter,
progress bar) are translated directly from the TypeScript sources.

Rational values that must be evaluated by the kernel (the parser and the
deterministic evaluator) use `Frac`, an unreduced numerator/denominator pair
with cross-multiplication comparison, because the library addition on `ℚ` is
irreducible.  Specification-level quantities (points, scores) use `ℚ`.
-/

namespace GraphragExam

/-- Unreduced rational value: an integer numerator and a natural denominator.
Every `Frac` built by the parser has a nonzero denominator. -/
structure Frac where
  num : Int
  den : Nat
deriving DecidableEq, Repr

/-- Numeric value of a natural number. -/
def Frac.ofNat (n : Nat) : Frac := ⟨n, 1⟩

/-- Addition by cross multiplication (no reduction). -/
def Frac.add (a b : Frac) : Frac := ⟨a.num * b.den + b.num * a.den, a.den * b.den⟩

/-- Negation. -/
def Frac.neg (a : Frac) : Frac := ⟨-a.num, a.den⟩

/-- Subtraction. -/
def Frac.sub (a b : Frac) : Frac := a.add b.neg

/-- Absolute value. -/
def Frac.abs (a : Frac) : Frac := ⟨a.num.natAbs, a.den⟩

/-- Value equality by cross multiplication (correct when denominators are
nonzero, which holds for every parsed value). -/
def Frac.eqv (a b : Frac) : Bool := a.num * b.den == b.num * a.den

/-- Order comparison by cross multiplication (correct when denominators are
positive, which holds for every parsed value). -/
def Frac.leB (a b : Frac) : Bool := decide (a.num * b.den ≤ b.num * a.den)

/-- Character-level lowercasing of ASCII capital letters, as the normalizer
applies to non-numeric tokens. -/
def toLowerChar (c : Char) : Char :=
  if 65 ≤ c.toNat ∧ c.toNat ≤ 90 then Char.ofNat (c.toNat + 32) else c

/-- Single-character step of the normalizer: decimal commas become dots,
whitespace becomes a plain space, capitals are lowercased. -/
def normChar (c : Char) : Char :=
  if c = ',' then '.'
  else if c.isWhitespace then ' '
  else toLowerChar c

theorem normChar_ofNat_shift (n : Nat) (h1 : 65 ≤ n) (h2 : n ≤ 90) :
    normChar (Char.ofNat (n + 32)) = Char.ofNat (n + 32) := by
  interval_cases n <;> decide

theorem normChar_idem (c : Char) : normChar (normChar c) = normChar c := by
  by_cases h1 : c = ','
  · rw [h1]; decide
  · by_cases h2 : c.isWhitespace
    · have e : normChar c = ' ' := by simp [normChar, h1, h2]
      rw [e]; decide
    · have e : normChar c = toLowerChar c := by simp [normChar, h1, h2]
      rw [e]
      by_cases h3 : 65 ≤ c.toNat ∧ c.toNat ≤ 90
      · have e2 : toLowerChar c = Char.ofNat (c.toNat + 32) := by
          simp [toLowerChar, h3]
        rw [e2]
        exact normChar_ofNat_shift c.toNat h3.1 h3.2
      · have e2 : toLowerChar c = c := by simp [toLowerChar, h3]
        rw [e2, e, e2]

/-- Splits a character list into its whitespace-separated words; `acc` holds
the characters of the word currently being read, in reverse. -/
def wordsAux : List Char → List Char → List (List Char)
  | [], acc => if acc = [] then [] else [acc.reverse]
  | c :: cs, acc =>
    if c = ' ' then
      if acc = [] then wordsAux cs [] else acc.reverse :: wordsAux cs []
    else wordsAux cs (c :: acc)

/-- The whitespace-separated words of a character list. -/
def words (cs : List Char) : List (List Char) := wordsAux cs []

/-- Joins words with single spaces. -/
def unwords : List (List Char) → List Char
  | [] => []
  | [w] => w
  | w :: ws => w ++ ' ' :: unwords ws

/-- Whitespace normalization of the answer normalizer: per-character
normalization followed by collapsing runs of whitespace and trimming. -/
def basicNorm (cs : List Char) : List Char := unwords (words (cs.map normChar))

theorem mem_wordsAux (w : List Char) :
    ∀ (cs acc : List Char), w ∈ wordsAux cs acc → ∀ c ∈ w, c ∈ cs ∨ c ∈ acc := by
  intro cs
  induction cs with
  | nil =>
    intro acc hw c hc
    by_cases ha : acc = []
    · simp [wordsAux, ha] at hw
    · simp [wordsAux, ha] at hw
      subst hw
      right
      simpa using hc
  | cons d cs ih =>
    intro acc hw c hc
    by_cases hd : d = ' '
    · by_cases ha : acc = []
      · simp [wordsAux, hd, ha] at hw
        rcases ih [] hw c hc with h | h
        · exact Or.inl (List.mem_cons_of_mem d h)
        · simp at h
      · simp [wordsAux, hd, ha] at hw
        rcases hw with hw | hw
        · subst hw
          right
          simpa using hc
        · rcases ih [] hw c hc with h | h
          · exact Or.inl (List.mem_cons_of_mem d h)
          · simp at h
    · simp only [wordsAux, if_neg hd] at hw
      rcases ih (d :: acc) hw c hc with h | h
      · exact Or.inl (List.mem_cons_of_mem d h)
      · rcases List.mem_cons.mp h with h | h
        · exact Or.inl (by simp [h])
        · exact Or.inr h

theorem wordsAux_ne_nil_nospace (w : List Char) :
    ∀ (cs acc : List Char), ' ' ∉ acc → w ∈ wordsAux cs acc → w ≠ [] ∧ ' ' ∉ w := by
  intro cs
  induction cs with
  | nil =>
    intro acc hacc hw
    by_cases ha : acc = []
    · simp [wordsAux, ha] at hw
    · simp [wordsAux, ha] at hw
      subst hw
      constructor
      · simpa using ha
      · simpa using hacc
  | cons d cs ih =>
    intro acc hacc hw
    by_cases hd : d = ' '
    · by_cases ha : acc = []
      · simp [wordsAux, hd, ha] at hw
        exact ih [] (by simp) hw
      · simp [wordsAux, hd, ha] at hw
        rcases hw with hw | hw
        · subst hw
          constructor
          · simpa using ha
          · simpa using hacc
        · exact ih [] (by simp) hw
    · simp only [wordsAux, if_neg hd] at hw
      refine ih (d :: acc) ?_ hw
      intro hmem
      rcases List.mem_cons.mp hmem with h | h
      · exact hd h.symm
      · exact hacc h

theorem unwords_chars (c : Char) :
    ∀ ws : List (List Char), c ∈ unwords ws → c = ' ' ∨ ∃ w ∈ ws, c ∈ w := by
  intro ws
  induction ws with
  | nil => intro h; simp [unwords] at h
  | cons w ws ih =>
    intro h
    cases ws with
    | nil =>
      right
      exact ⟨w, by simp, by simpa [unwords] using h⟩
    | cons w2 ws2 =>
      simp only [unwords, List.mem_append, List.mem_cons] at h
      rcases h with h | h | h
      · exact Or.inr ⟨w, by simp, h⟩
      · exact Or.inl h
      · rcases ih h with h | ⟨u, hu, hc⟩
        · exact Or.inl h
        · exact Or.inr ⟨u, List.mem_cons_of_mem w hu, hc⟩

theorem wordsAux_append_nospace (w : List Char) :
    ∀ (rest acc : List Char), ' ' ∉ w →
      wordsAux (w ++ rest) acc = wordsAux rest (w.reverse ++ acc) := by
  induction w with
  | nil => intro rest acc _; simp
  | cons c w ih =>
    intro rest acc hw
    have hc : c ≠ ' ' := fun h => hw (by simp [h])
    have ihh := ih rest (c :: acc) (fun h => hw (List.mem_cons_of_mem c h))
    simp only [List.cons_append, wordsAux, if_neg hc]
    rw [show List.append w rest = w ++ rest from rfl, ihh]
    simp

theorem words_single (w : List Char) (h1 : w ≠ []) (h2 : ' ' ∉ w) :
    words w = [w] := by
  have := wordsAux_append_nospace w [] [] h2
  simp only [List.append_nil] at this
  simp [words, this, wordsAux, h1]

theorem words_unwords (ws : List (List Char))
    (h : ∀ w ∈ ws, w ≠ [] ∧ ' ' ∉ w) : words (unwords ws) = ws := by
  induction ws with
  | nil => simp [unwords, words, wordsAux]
  | cons w ws ih =>
    cases ws with
    | nil =>
      have hw := h w (by simp)
      simpa [unwords] using words_single w hw.1 hw.2
    | cons w2 ws2 =>
      have hw := h w (by simp)
      have step := wordsAux_append_nospace w (' ' :: unwords (w2 :: ws2)) [] hw.2
      have hrev : (w.reverse : List Char) ≠ [] := by simpa using hw.1
      simp only [words, unwords] at *
      rw [step]
      simp only [List.append_nil, wordsAux, if_pos rfl, if_neg hrev]
      rw [ih (fun u hu => h u (List.mem_cons_of_mem w hu))]
      simp

theorem basicNorm_words_ok (w : List Char) (cs : List Char)
    (hw : w ∈ words (cs.map normChar)) :
    w ≠ [] ∧ ' ' ∉ w ∧ ∀ c ∈ w, normChar c = c := by
  obtain ⟨h1, h2⟩ := wordsAux_ne_nil_nospace w (cs.map normChar) [] (by simp) hw
  refine ⟨h1, h2, ?_⟩
  intro c hc
  rcases mem_wordsAux w (cs.map normChar) [] hw c hc with h | h
  · rcases List.mem_map.mp h with ⟨c0, _, hc0⟩
    rw [← hc0, normChar_idem]
  · simp at h

theorem map_normChar_basicNorm (cs : List Char) :
    (basicNorm cs).map normChar = basicNorm cs := by
  have : ∀ c ∈ basicNorm cs, normChar c = c := by
    intro c hc
    rcases unwords_chars c (words (cs.map normChar)) hc with h | ⟨w, hw, hcw⟩
    · rw [h]; decide
    · exact (basicNorm_words_ok w cs hw).2.2 c hcw
  calc (basicNorm cs).map normChar = (basicNorm cs).map id := List.map_congr_left this
    _ = basicNorm cs := List.map_id _

theorem basicNorm_idem (cs : List Char) : basicNorm (basicNorm cs) = basicNorm cs := by
  unfold basicNorm
  rw [show (unwords (words (cs.map normChar))).map normChar
        = unwords (words (cs.map normChar)) from map_normChar_basicNorm cs]
  rw [words_unwords (words (cs.map normChar))
        (fun w hw => ⟨(basicNorm_words_ok w cs hw).1, (basicNorm_words_ok w cs hw).2.1⟩)]

theorem basicNorm_fix (cs : List Char) (h1 : cs ≠ []) (h2 : ' ' ∉ cs)
    (h3 : ∀ c ∈ cs, normChar c = c) : basicNorm cs = cs := by
  unfold basicNorm
  have hmap : cs.map normChar = cs := by
    calc cs.map normChar = cs.map id := List.map_congr_left h3
      _ = cs := List.map_id _
  rw [hmap, words_single cs h1 h2]
  rfl

/-- Character for a single decimal digit. -/
def digitChar (d : Nat) : Char := Char.ofNat (48 + d)

/-- Decimal digit denoted by a character. -/
def charToDigit (c : Char) : Nat := c.toNat - 48

/-- Decimal digit test. -/
def isDigitChar (c : Char) : Bool := decide (48 ≤ c.toNat) && decide (c.toNat ≤ 57)

/-- Little-endian base-10 digits computed with explicit fuel so that the
kernel can evaluate it (the library version recurses by well-founded means). -/
def natDigitsAux : Nat → Nat → List Nat
  | 0, _ => []
  | _ + 1, 0 => []
  | fuel + 1, n + 1 => ((n + 1) % 10) :: natDigitsAux fuel ((n + 1) / 10)

/-- Little-endian base-10 digits of a natural number. -/
def natDigits (n : Nat) : List Nat := natDigitsAux n n

theorem natDigitsAux_eq (fuel : Nat) :
    ∀ n : Nat, n ≤ fuel → natDigitsAux fuel n = Nat.digits 10 n := by
  induction fuel with
  | zero =>
    intro n hn
    interval_cases n
    simp [natDigitsAux]
  | succ fuel ih =>
    intro n hn
    cases n with
    | zero => simp [natDigitsAux]
    | succ m =>
      have hdiv : (m + 1) / 10 ≤ fuel := by
        have := Nat.div_lt_self (Nat.succ_pos m) (show 1 < 10 by norm_num)
        omega
      rw [show natDigitsAux (fuel + 1) (m + 1)
            = ((m + 1) % 10) :: natDigitsAux fuel ((m + 1) / 10) from rfl]
      rw [ih _ hdiv, Nat.digits_def' (show 1 < 10 by norm_num) (Nat.succ_pos m)]

theorem natDigits_eq (n : Nat) : natDigits n = Nat.digits 10 n :=
  natDigitsAux_eq n n le_rfl

theorem natDigits_lt (n d : Nat) (h : d ∈ natDigits n) : d < 10 := by
  rw [natDigits_eq] at h
  exact Nat.digits_lt_base (by norm_num) h

theorem natDigits_ne_nil (n : Nat) (h : n ≠ 0) : natDigits n ≠ [] := by
  rw [natDigits_eq]
  exact Nat.digits_ne_nil_iff_ne_zero.mpr h

/-- Decimal rendering of a natural number. -/
def renderNat (n : Nat) : List Char :=
  if n = 0 then ['0'] else ((natDigits n).map digitChar).reverse

/-- Parses a nonempty all-digit character list as a natural number. -/
def parseNat (cs : List Char) : Option Nat :=
  if cs = [] then none
  else if cs.all isDigitChar then
    some (Nat.ofDigits 10 ((cs.map charToDigit).reverse))
  else none

theorem charToDigit_digitChar (d : Nat) (h : d < 10) : charToDigit (digitChar d) = d := by
  interval_cases d <;> decide

theorem isDigitChar_digitChar (d : Nat) (h : d < 10) : isDigitChar (digitChar d) = true := by
  interval_cases d <;> decide

theorem renderNat_ne_nil (n : Nat) : renderNat n ≠ [] := by
  unfold renderNat
  by_cases h : n = 0
  · simp [h]
  · simp only [if_neg h, ne_eq, List.reverse_eq_nil_iff, List.map_eq_nil_iff]
    exact natDigits_ne_nil n h

theorem renderNat_all_digit (n : Nat) (c : Char) (h : c ∈ renderNat n) :
    isDigitChar c = true := by
  unfold renderNat at h
  by_cases hn : n = 0
  · simp [hn] at h
    rw [h]; decide
  · simp only [if_neg hn, List.mem_reverse, List.mem_map] at h
    obtain ⟨d, hd, rfl⟩ := h
    exact isDigitChar_digitChar d (natDigits_lt n d hd)

theorem digit_ne_marks (c : Char) (h : isDigitChar c = true) :
    c ≠ '-' ∧ c ≠ '/' ∧ c ≠ '.' ∧ c ≠ ' ' := by
  refine ⟨?_, ?_, ?_, ?_⟩ <;> · intro e; rw [e] at h; exact absurd h (by decide)

theorem normChar_fix_digit (c : Char) (h : isDigitChar c = true) : normChar c = c := by
  have hr : 48 ≤ c.toNat ∧ c.toNat ≤ 57 := by
    simpa [isDigitChar] using h
  unfold normChar
  rw [if_neg, if_neg]
  · unfold toLowerChar
    rw [if_neg]
    omega
  · intro hw
    have hw2 : ((c = ' ' ∨ c = '\t') ∨ c = '\r') ∨ c = '\n' := by
      simpa [Char.isWhitespace] using hw
    rcases hw2 with ((e | e) | e) | e <;> · rw [e] at h; exact absurd h (by decide)
  · intro e
    rw [e] at h
    exact absurd h (by decide)

theorem parseNat_renderNat (n : Nat) : parseNat (renderNat n) = some n := by
  by_cases hn : n = 0
  · subst hn; decide
  · have hnil : renderNat n ≠ [] := renderNat_ne_nil n
    have hall : (renderNat n).all isDigitChar = true :=
      List.all_eq_true.mpr fun c hc => renderNat_all_digit n c hc
    unfold parseNat
    rw [if_neg hnil, if_pos hall]
    unfold renderNat
    rw [if_neg hn]
    congr 1
    rw [← List.map_reverse, List.reverse_reverse, List.map_map]
    have : (natDigits n).map (charToDigit ∘ digitChar) = natDigits n := by
      calc (natDigits n).map (charToDigit ∘ digitChar)
          = (natDigits n).map id :=
            List.map_congr_left fun d hd =>
              charToDigit_digitChar d (natDigits_lt n d hd)
        _ = natDigits n := List.map_id _
    rw [this, natDigits_eq, Nat.ofDigits_digits]

/-- Splits at the first occurrence of a separator, if any. -/
def splitOnce (sep : Char) : List Char → Option (List Char × List Char)
  | [] => none
  | c :: cs =>
    if c = sep then some ([], cs)
    else (splitOnce sep cs).map fun p => (c :: p.1, p.2)

theorem splitOnce_not_mem (sep : Char) :
    ∀ cs : List Char, sep ∉ cs → splitOnce sep cs = none := by
  intro cs
  induction cs with
  | nil => intro; rfl
  | cons c cs ih =>
    intro h
    have hc : c ≠ sep := fun e => h (by simp [e])
    simp only [splitOnce, if_neg hc, ih (fun hm => h (List.mem_cons_of_mem c hm))]
    rfl

theorem splitOnce_append (sep : Char) (r : List Char) :
    ∀ l : List Char, sep ∉ l → splitOnce sep (l ++ sep :: r) = some (l, r) := by
  intro l
  induction l with
  | nil => intro; simp [splitOnce]
  | cons c l ih =>
    intro h
    have hc : c ≠ sep := fun e => h (by simp [e])
    simp only [List.cons_append, splitOnce, if_neg hc]
    rw [show List.append l (sep :: r) = l ++ sep :: r from rfl,
      ih (fun hm => h (List.mem_cons_of_mem c hm))]
    rfl

/-- Parses an unsigned numeric answer: a fraction `a/b`, a decimal `a.b`, or a
plain natural number. -/
def parseUnsignedFrac (cs : List Char) : Option Frac :=
  match splitOnce '/' cs with
  | some p =>
    match parseNat p.1, parseNat p.2 with
    | some a, some b => if b = 0 then none else some ⟨(a : Int), b⟩
    | _, _ => none
  | none =>
    match splitOnce '.' cs with
    | some p =>
      match parseNat p.1, parseNat p.2 with
      | some a, some b => some (Frac.add ⟨(a : Int), 1⟩ ⟨(b : Int), 10 ^ p.2.length⟩)
      | _, _ => none
    | none => (parseNat cs).map fun n => ⟨(n : Int), 1⟩

/-- Parses a numeric answer with an optional leading minus sign. -/
def parseFrac (cs : List Char) : Option Frac :=
  if cs.head? = some '-' then (parseUnsignedFrac cs.tail).map Frac.neg
  else parseUnsignedFrac cs

theorem parseUnsignedFrac_den (cs : List Char) (f : Frac)
    (h : parseUnsignedFrac cs = some f) : f.den ≠ 0 := by
  unfold parseUnsignedFrac at h
  split at h
  · split at h
    · split at h
      · cases h
      · rename_i b hb
        injection h with h
        subst h
        simpa using hb
    · cases h
  · split at h
    · split at h
      · injection h with h
        subst h
        simp [Frac.add]
      · cases h
    · cases Option.map_eq_some'.mp h with
      | intro n hn =>
        rw [← hn.2]
        simp

theorem parseFrac_den (cs : List Char) (f : Frac)
    (h : parseFrac cs = some f) : f.den ≠ 0 := by
  unfold parseFrac at h
  split at h
  · cases Option.map_eq_some'.mp h with
    | intro u hu =>
      have := parseUnsignedFrac_den _ _ hu.1
      rw [← hu.2]
      simpa [Frac.neg] using this
  · exact parseUnsignedFrac_den _ _ h

/-- Reduced form of a parsed value: numerator and denominator divided by
their greatest common divisor, the sign kept on the numerator. -/
def reduceFrac (f : Frac) : Frac :=
  ⟨if f.num < 0 then -((f.num.natAbs / Nat.gcd f.num.natAbs f.den : Nat) : Int)
    else ((f.num.natAbs / Nat.gcd f.num.natAbs f.den : Nat) : Int),
   f.den / Nat.gcd f.num.natAbs f.den⟩

/-- Canonical decimal rendering: optional minus sign, numerator digits, and a
`/denominator` part when the denominator is not one. -/
def renderFrac (g : Frac) : List Char :=
  (if g.num < 0 then ['-'] else []) ++ renderNat g.num.natAbs ++
  (if g.den = 1 then [] else '/' :: renderNat g.den)

theorem int_sign_natAbs (z : Int) :
    (if z < 0 then -((z.natAbs : Nat) : Int) else ((z.natAbs : Nat) : Int)) = z := by
  split <;> omega

theorem reduceFrac_den (f : Frac) (hd : f.den ≠ 0) : (reduceFrac f).den ≠ 0 := by
  have hg : Nat.gcd f.num.natAbs f.den ≠ 0 := fun h =>
    hd (Nat.eq_zero_of_gcd_eq_zero_right h)
  have hdvd : Nat.gcd f.num.natAbs f.den ∣ f.den := Nat.gcd_dvd_right _ _
  have : 0 < f.den / Nat.gcd f.num.natAbs f.den :=
    Nat.div_pos (Nat.le_of_dvd (Nat.pos_of_ne_zero hd) hdvd) (Nat.pos_of_ne_zero hg)
  simpa [reduceFrac] using this.ne'

theorem reduceFrac_of_coprime (f : Frac) (h : Nat.gcd f.num.natAbs f.den = 1) :
    reduceFrac f = f := by
  cases f with
  | mk n d =>
    simp only at h
    unfold reduceFrac
    simp only
    rw [h]
    simp only [Nat.div_one]
    rw [int_sign_natAbs n]

theorem reduceFrac_idem (f : Frac) (hd : f.den ≠ 0) :
    reduceFrac (reduceFrac f) = reduceFrac f := by
  have hg : 0 < Nat.gcd f.num.natAbs f.den :=
    Nat.pos_of_ne_zero fun h => hd (Nat.eq_zero_of_gcd_eq_zero_right h)
  have habs : (reduceFrac f).num.natAbs
      = f.num.natAbs / Nat.gcd f.num.natAbs f.den := by
    show (Frac.mk _ _).num.natAbs = _
    dsimp only
    split
    · rw [Int.natAbs_neg, Int.natAbs_ofNat]
    · rw [Int.natAbs_ofNat]
  have hden : (reduceFrac f).den = f.den / Nat.gcd f.num.natAbs f.den := rfl
  refine reduceFrac_of_coprime (reduceFrac f) ?_
  rw [habs, hden]
  exact Nat.coprime_div_gcd_div_gcd hg

theorem renderNat_no_slash (n : Nat) : '/' ∉ renderNat n := fun h =>
  absurd (renderNat_all_digit n '/' h) (by decide)

theorem renderNat_no_dot (n : Nat) : '.' ∉ renderNat n := fun h =>
  absurd (renderNat_all_digit n '.' h) (by decide)

theorem parseUnsignedFrac_render (a den : Nat) (hden : den ≠ 0) :
    parseUnsignedFrac (renderNat a ++ (if den = 1 then [] else '/' :: renderNat den))
      = some ⟨(a : Int), den⟩ := by
  by_cases h1 : den = 1
  · rw [if_pos h1, List.append_nil]
    unfold parseUnsignedFrac
    rw [splitOnce_not_mem '/' _ (renderNat_no_slash a),
      splitOnce_not_mem '.' _ (renderNat_no_dot a), parseNat_renderNat]
    simp [h1]
  · rw [if_neg h1]
    unfold parseUnsignedFrac
    rw [splitOnce_append '/' (renderNat den) (renderNat a) (renderNat_no_slash a)]
    simp only [parseNat_renderNat]
    rw [if_neg hden]

theorem parseFrac_renderFrac (g : Frac) (hd : g.den ≠ 0) :
    parseFrac (renderFrac g) = some g := by
  by_cases hneg : g.num < 0
  · have e : renderFrac g
        = '-' :: (renderNat g.num.natAbs
            ++ (if g.den = 1 then [] else '/' :: renderNat g.den)) := by
      simp [renderFrac, hneg]
    rw [e]
    unfold parseFrac
    simp only [List.head?_cons, List.tail_cons, Option.some.injEq, if_true]
    rw [parseUnsignedFrac_render g.num.natAbs g.den hd]
    simp only [Option.map_some', Frac.neg]
    congr 1
    have : -((g.num.natAbs : Nat) : Int) = g.num := by omega
    exact congrArg₂ Frac.mk this rfl
  · obtain ⟨c, cs', hc⟩ := List.exists_cons_of_ne_nil (renderNat_ne_nil g.num.natAbs)
    have hcd : isDigitChar c = true := renderNat_all_digit _ c (by rw [hc]; simp)
    have e : renderFrac g
        = renderNat g.num.natAbs
            ++ (if g.den = 1 then [] else '/' :: renderNat g.den) := by
      simp [renderFrac, hneg]
    have hhead : (renderFrac g).head? = some c := by
      rw [e, hc]
      rfl
    unfold parseFrac
    rw [hhead]
    have hcne : c ≠ '-' := (digit_ne_marks c hcd).1
    rw [if_neg (by simpa using hcne)]
    rw [e, parseUnsignedFrac_render g.num.natAbs g.den hd]
    congr 1
    have : ((g.num.natAbs : Nat) : Int) = g.num := by omega
    exact congrArg₂ Frac.mk this rfl

theorem renderFrac_ne_nil (g : Frac) : renderFrac g ≠ [] := by
  unfold renderFrac
  intro h
  rcases List.append_eq_nil.mp h with ⟨h1, _⟩
  rcases List.append_eq_nil.mp h1 with ⟨_, h2⟩
  exact renderNat_ne_nil g.num.natAbs h2

theorem renderFrac_mem (g : Frac) (c : Char) (h : c ∈ renderFrac g) :
    c = '-' ∨ c = '/' ∨ isDigitChar c = true := by
  unfold renderFrac at h
  rcases List.mem_append.mp h with h | h
  · rcases List.mem_append.mp h with h | h
    · left
      by_cases hneg : g.num < 0
      · simpa [hneg] using h
      · simp [hneg] at h
    · right; right
      exact renderNat_all_digit _ c h
  · by_cases h1 : g.den = 1
    · simp [h1] at h
    · simp only [if_neg h1, List.mem_cons] at h
      rcases h with h | h
      · right; left; exact h
      · right; right; exact renderNat_all_digit _ c h

theorem renderFrac_no_space (f : Frac) (h : ' ' ∈ renderFrac f) : False := by
  rcases renderFrac_mem f ' ' h with e | e | e
  · cases e
  · cases e
  · exact absurd e (by decide)

theorem renderFrac_normChar_fix (f : Frac) (c : Char) (h : c ∈ renderFrac f) :
    normChar c = c := by
  rcases renderFrac_mem f c h with e | e | e
  · rw [e]; decide
  · rw [e]; decide
  · exact normChar_fix_digit c e

/-- Lowercase ASCII letter test. -/
def isAlphaChar (c : Char) : Bool := decide (97 ≤ c.toNat) && decide (c.toNat ≤ 122)

/-- Modelled from the spec: the normalizer strips a trailing unit token
(letters after a space) when the part before the space parses as a number. -/
def stripUnit (cs : List Char) : List Char :=
  match splitOnce ' ' cs with
  | some p => if (parseFrac p.1).isSome && p.2.all isAlphaChar then p.1 else cs
  | none => cs

/-- Characters admitted in a canonical textual answer; anything else makes the
answer unparseable for the normalizer. -/
def validChar (c : Char) : Bool :=
  isAlphaChar c || isDigitChar c || decide (c = ' ') || decide (c = '.') ||
  decide (c = '/') || decide (c = '-') || decide (c = '+') || decide (c = '*')

/-- Modelled from the spec: the answer normalizer pipeline of section 4.1 —
per-character normalization (decimal separators, lowercasing), whitespace
collapsing and trimming, unit stripping, then canonical rendering of numeric
answers; plain text is kept in cleaned form and unparseable input maps to the
empty canonical form.  The backend implementation is absent from the
sources. -/
def normalizeChars (cs : List Char) : List Char :=
  match parseFrac (stripUnit (basicNorm cs)) with
  | some f => renderFrac (reduceFrac f)
  | none =>
    if (stripUnit (basicNorm cs)).all validChar then stripUnit (basicNorm cs) else []

/-- Modelled from the spec: string-level normalizer.  The pipeline described
in the specification does not branch on the question type, so that argument
is carried but unused. -/
def normalize (qtype : String) (s : String) : String :=
  String.mk (normalizeChars s.data)

theorem basicNorm_stripUnit (cs : List Char) :
    basicNorm (stripUnit (basicNorm cs)) = stripUnit (basicNorm cs) := by
  have hb : basicNorm cs = unwords (words (cs.map normChar)) := rfl
  cases hw : words (cs.map normChar) with
  | nil =>
    have hnil : basicNorm cs = [] := by rw [hb, hw]; rfl
    rw [hnil]
    rfl
  | cons w ws =>
    have hword := basicNorm_words_ok w cs (by rw [hw]; exact List.mem_cons_self _ _)
    cases ws with
    | nil =>
      have he : basicNorm cs = w := by rw [hb, hw]; rfl
      rw [he]
      have : stripUnit w = w := by
        unfold stripUnit
        rw [splitOnce_not_mem ' ' w hword.2.1]
      rw [this]
      exact basicNorm_fix w hword.1 hword.2.1 hword.2.2
    | cons w2 ws2 =>
      have he : basicNorm cs = w ++ ' ' :: unwords (w2 :: ws2) := by
        rw [hb, hw]; rfl
      have hsplit : splitOnce ' ' (basicNorm cs) = some (w, unwords (w2 :: ws2)) := by
        rw [he]
        exact splitOnce_append ' ' _ w hword.2.1
      by_cases hc : ((parseFrac w).isSome && (unwords (w2 :: ws2)).all isAlphaChar) = true
      · have hstrip : stripUnit (basicNorm cs) = w := by
          unfold stripUnit
          rw [hsplit]
          exact if_pos hc
        rw [hstrip]
        exact basicNorm_fix w hword.1 hword.2.1 hword.2.2
      · have hstrip : stripUnit (basicNorm cs) = basicNorm cs := by
          unfold stripUnit
          rw [hsplit]
          exact if_neg hc
        rw [hstrip]
        exact basicNorm_idem cs

theorem stripUnit_stable (u : List Char)
    (h : parseFrac (stripUnit u) = none) : stripUnit (stripUnit u) = stripUnit u := by
  cases hs : splitOnce ' ' u with
  | none =>
    have h1 : stripUnit u = u := by unfold stripUnit; rw [hs]
    rw [h1]
    exact h1
  | some p =>
    by_cases hc : ((parseFrac p.1).isSome && p.2.all isAlphaChar) = true
    · have h1 : stripUnit u = p.1 := by
        unfold stripUnit
        rw [hs]
        exact if_pos hc
      rw [h1] at h
      simp [h] at hc
    · have h1 : stripUnit u = u := by
        unfold stripUnit
        rw [hs]
        exact if_neg hc
      rw [h1]
      exact h1

theorem normalizeChars_idem (cs : List Char) :
    normalizeChars (normalizeChars cs) = normalizeChars cs := by
  cases h : parseFrac (stripUnit (basicNorm cs)) with
  | some f =>
    have hout : normalizeChars cs = renderFrac (reduceFrac f) := by
      unfold normalizeChars
      rw [h]
    have hd : (reduceFrac f).den ≠ 0 :=
      reduceFrac_den f (parseFrac_den _ f h)
    have e1 : basicNorm (renderFrac (reduceFrac f)) = renderFrac (reduceFrac f) :=
      basicNorm_fix _ (renderFrac_ne_nil _) (renderFrac_no_space _) fun c hc =>
        renderFrac_normChar_fix _ c hc
    have e2 : stripUnit (renderFrac (reduceFrac f)) = renderFrac (reduceFrac f) := by
      unfold stripUnit
      rw [splitOnce_not_mem ' ' _ (renderFrac_no_space _)]
    have e3 : parseFrac (renderFrac (reduceFrac f)) = some (reduceFrac f) :=
      parseFrac_renderFrac _ hd
    rw [hout]
    unfold normalizeChars
    rw [e1, e2, e3]
    show renderFrac (reduceFrac (reduceFrac f)) = renderFrac (reduceFrac f)
    rw [reduceFrac_idem f (parseFrac_den _ f h)]
  | none =>
    by_cases hv : (stripUnit (basicNorm cs)).all validChar = true
    · have hout : normalizeChars cs = stripUnit (basicNorm cs) := by
        unfold normalizeChars
        rw [h, if_pos hv]
      have e1 : basicNorm (stripUnit (basicNorm cs)) = stripUnit (basicNorm cs) :=
        basicNorm_stripUnit cs
      have e2 : stripUnit (stripUnit (basicNorm cs)) = stripUnit (basicNorm cs) :=
        stripUnit_stable (basicNorm cs) h
      rw [hout]
      unfold normalizeChars
      rw [e1, e2, h]
      show (if (stripUnit (basicNorm cs)).all validChar = true
            then stripUnit (basicNorm cs) else []) = stripUnit (basicNorm cs)
      rw [if_pos hv]
    · have hout : normalizeChars cs = [] := by
        unfold normalizeChars
        rw [h, if_neg hv]
      rw [hout]
      rfl

/-- Verdict of the deterministic evaluator stages. -/
inductive Verdict where
  | certifiedCorrect
  | certifiedIncorrect
  | declined
deriving DecidableEq

/-- Whether a character list contains a decimal digit. -/
def hasDigit (cs : List Char) : Bool := cs.any isDigitChar

/-- Whether a character list contains the variable letter x. -/
def hasVar (cs : List Char) : Bool := cs.any fun c => c = 'x'

/-- Splits on every occurrence of a separator. -/
def splitAllAux (sep : Char) : List Char → List Char → List (List Char)
  | [], acc => [acc.reverse]
  | c :: cs, acc =>
    if c = sep then acc.reverse :: splitAllAux sep cs []
    else splitAllAux sep cs (c :: acc)

/-- All separator-delimited pieces of a character list. -/
def splitAll (sep : Char) (cs : List Char) : List (List Char) := splitAllAux sep cs []

/-- Modelled from the spec: one term of a simple algebraic expression — a
constant, the variable x, or a coefficient times x — as a pair of coefficient
and constant. -/
def parseTerm (cs : List Char) : Option (Frac × Frac) :=
  match cs.getLast? with
  | some 'x' =>
    if cs.dropLast = [] then some (⟨1, 1⟩, ⟨0, 1⟩)
    else if cs.dropLast.getLast? = some '*' then
      (parseFrac cs.dropLast.dropLast).map fun a => (a, ⟨0, 1⟩)
    else (parseFrac cs.dropLast).map fun a => (a, ⟨0, 1⟩)
  | _ => (parseFrac cs).map fun a => ((⟨0, 1⟩ : Frac), a)

/-- Componentwise sum of linear forms. -/
def addTerm (p q : Frac × Frac) : Frac × Frac := (p.1.add q.1, p.2.add q.2)

/-- Modelled from the spec: sum of the linear terms of an expression; fails
when any term fails to parse. -/
def parseLinear : List (List Char) → Option (Frac × Frac)
  | [] => some (⟨0, 1⟩, ⟨0, 1⟩)
  | t :: ts =>
    match parseTerm t, parseLinear ts with
    | some p, some q => some (addTerm p q)
    | _, _ => none

/-- Modelled from the spec: parses a simple algebraic expression in the
variable x as a sum of plus-separated terms. -/
def parseExpr (cs : List Char) : Option (Frac × Frac) :=
  if hasVar cs then parseLinear (splitAll '+' cs) else none

/-- Equality of linear forms by cross multiplication on both components. -/
def exprEqv (p q : Frac × Frac) : Bool := p.1.eqv q.1 && p.2.eqv q.2

/-- Default numeric tolerance of the evaluator (0.01). -/
def defaultTol : Frac := ⟨1, 100⟩

/-- Modelled from the spec: the deterministic evaluator stages of section 4.2
over normalized answers.  An empty normalized student answer is certified
incorrect; answers without digits or variables are compared exactly as text;
numeric answers are compared with an absolute tolerance; simple algebraic
expressions are compared by equality of their simplified linear forms;
everything else is declined to the semantic stage. -/
def evaluate (tol : Frac) (correctAns student : String) : Verdict :=
  if normalizeChars student.data = [] then .certifiedIncorrect
  else if hasDigit (normalizeChars correctAns.data)
      || hasVar (normalizeChars correctAns.data)
      || hasDigit (normalizeChars student.data)
      || hasVar (normalizeChars student.data) then
    match parseFrac (normalizeChars correctAns.data),
        parseFrac (normalizeChars student.data) with
    | some a, some b =>
      if ((b.sub a).abs).leB tol then .certifiedCorrect else .certifiedIncorrect
    | _, _ =>
      match parseExpr (normalizeChars correctAns.data),
          parseExpr (normalizeChars student.data) with
      | some p, some q =>
        if exprEqv p q then .certifiedCorrect else .certifiedIncorrect
      | _, _ => .declined
  else if normalizeChars correctAns.data = normalizeChars student.data then
    .certifiedCorrect
  else .certifiedIncorrect

/-- Question record: identifier, canonical correct answer, points. -/
structure Question where
  id : Nat
  correct_answer : String
  points : ℚ

/-- Per-question correction record as persisted by the correction workflow. -/
structure QuestionCorrection where
  points_earned : ℚ
  points_possible : ℚ
  is_correct : Bool
  needs_manual_review : Bool
deriving DecidableEq

/-- Result of `correct_question` together with whether the semantic agent was
invoked for the pair. -/
structure CorrectionOutcome where
  result : QuestionCorrection
  semanticInvoked : Bool

/-- Boolean deterministic comparison used by
`MathCorrectionService.correct_question` in the README excerpt: the evaluator
verdict collapsed to is-certified-correct. -/
def compare_math_answers (tol : Frac) (student_answer correct_answer : String) : Bool :=
  decide (evaluate tol correct_answer student_answer = Verdict.certifiedCorrect)

/-- Embeds `MathCorrectionService.correct_question` from the README excerpt
and the CORRECTION WORKFLOW diagram: the deterministic comparison yields a
boolean; on success the question is awarded full points, otherwise the AI
correction agent is invoked and its result returned. -/
def correct_question (tol : Frac) (ai : Question → String → QuestionCorrection)
    (q : Question) (student_answer : String) : CorrectionOutcome :=
  if compare_math_answers tol student_answer q.correct_answer then
    { result := { points_earned := q.points, points_possible := q.points,
                  is_correct := true, needs_manual_review := false },
      semanticInvoked := false }
  else
    { result := ai q student_answer, semanticInvoked := true }

/-- Concrete semantic-agent stand-in used in concrete instances: awards three
points and marks the answer incorrect. -/
def aiStub : Question → String → QuestionCorrection :=
  fun q _ => { points_earned := 3, points_possible := q.points,
               is_correct := false, needs_manual_review := false }

/-- C1 counterexample: on correct answer "x+1" and student answer "x+2" the
symbolic stage certifies the verdict incorrect, yet `correct_question`
invokes the semantic correction agent for the pair and adopts the nonzero
score the agent returns, so a certified-incorrect verdict is neither final
nor fixed at zero points. -/
theorem c1_counterexample :
    evaluate defaultTol "x+1" "x+2" = Verdict.certifiedIncorrect ∧
    (correct_question defaultTol aiStub ⟨1, "x+1", 5⟩ "x+2").semanticInvoked = true ∧
    (correct_question defaultTol aiStub ⟨1, "x+1", 5⟩ "x+2").result.points_earned = 3 :=
  ⟨by decide, by decide, rfl⟩

/-- C1 (amended): when the deterministic evaluator certifies "incorrect",
`correct_question` is not final — it invokes the semantic correction agent
for that pair and returns the agent's result; only a certified "correct"
verdict is terminal. -/
theorem c1_certified_incorrect_invokes_semantic (tol : Frac)
    (ai : Question → String → QuestionCorrection) (q : Question) (s : String)
    (h : evaluate tol q.correct_answer s = Verdict.certifiedIncorrect) :
    (correct_question tol ai q s).semanticInvoked = true ∧
    (correct_question tol ai q s).result = ai q s := by
  have hc : compare_math_answers tol s q.correct_answer = false := by
    unfold compare_math_answers
    rw [h]
    rfl
  unfold correct_question
  rw [hc]
  simp

/-- Witness for the amended C1 theorem at the concrete symbolic pair. -/
theorem c1_certified_incorrect_invokes_semantic_witness :
    (correct_question defaultTol aiStub ⟨1, "x+1", 5⟩ "x+2").semanticInvoked = true ∧
    (correct_question defaultTol aiStub ⟨1, "x+1", 5⟩ "x+2").result
      = aiStub ⟨1, "x+1", 5⟩ "x+2" :=
  c1_certified_incorrect_invokes_semantic defaultTol aiStub ⟨1, "x+1", 5⟩ "x+2" (by decide)

/-- C5 counterexample: on the empty student answer, `correct_question`
invokes the semantic agent and adopts its nonzero score instead of returning
a certified zero-point incorrect verdict without the semantic stage. -/
theorem c5_counterexample :
    (correct_question defaultTol aiStub ⟨2, "7", 5⟩ "").semanticInvoked = true ∧
    (correct_question defaultTol aiStub ⟨2, "7", 5⟩ "").result.points_earned = 3 :=
  ⟨by decide, rfl⟩

/-- C5 (amended): an empty (or all-whitespace) student answer is certified
incorrect by the deterministic evaluator, but `correct_question` then
invokes the semantic correction agent for the pair rather than finalizing a
zero-point result. -/
theorem c5_empty_answer_certified_incorrect_but_semantic (tol : Frac)
    (ai : Question → String → QuestionCorrection) (q : Question) (s : String)
    (h : normalizeChars s.data = []) :
    evaluate tol q.correct_answer s = Verdict.certifiedIncorrect ∧
    (correct_question tol ai q s).semanticInvoked = true := by
  have he : evaluate tol q.correct_answer s = Verdict.certifiedIncorrect := by
    unfold evaluate
    rw [h]
    simp
  refine ⟨he, ?_⟩
  have hc : compare_math_answers tol s q.correct_answer = false := by
    unfold compare_math_answers
    rw [he]
    rfl
  unfold correct_question
  rw [hc]
  simp

/-- Witness for the amended C5 theorem at the empty student answer. -/
theorem c5_empty_answer_witness :
    evaluate defaultTol (Question.mk 2 "7" 5).correct_answer "" = Verdict.certifiedIncorrect ∧
    (correct_question defaultTol aiStub ⟨2, "7", 5⟩ "").semanticInvoked = true :=
  c5_empty_answer_certified_incorrect_but_semantic defaultTol aiStub ⟨2, "7", 5⟩ "" (by decide)

/-- C8: the normalizer is idempotent for every question type and input
string; it is a total function (so it never raises), and unparseable input —
a cleaned form that neither parses as a number nor consists of admissible
answer characters — maps to the empty canonical form. -/
theorem c8_normalize_idempotent (qtype s : String) :
    normalize qtype (normalize qtype s) = normalize qtype s ∧
    (parseFrac (stripUnit (basicNorm s.data)) = none →
      (stripUnit (basicNorm s.data)).all validChar = false →
      normalize qtype s = "") := by
  constructor
  · unfold normalize
    congr 1
    have he : (String.mk (normalizeChars s.data)).data = normalizeChars s.data := rfl
    rw [he, normalizeChars_idem]
  · intro h1 h2
    unfold normalize normalizeChars
    rw [h1]
    show String.mk (if (stripUnit (basicNorm s.data)).all validChar = true
        then stripUnit (basicNorm s.data) else []) = ""
    rw [h2]
    rfl

/-- Witness for C8 at a concrete unparseable input. -/
theorem c8_normalize_idempotent_witness :
    normalize "calculation" (normalize "calculation" "@@") = normalize "calculation" "@@" ∧
    normalize "calculation" "@@" = "" := by
  have h := c8_normalize_idempotent "calculation" "@@"
  exact ⟨h.1, h.2 (by decide) (by decide)⟩

/-- Modelled from the spec: raw semantic-agent response after JSON parsing;
the fields are optional because the response is untrusted until validated. -/
structure RawAgentResponse where
  points_earned : Option ℚ
  feedback : Option String
  step_by_step_solution : Option String
  error_types : List String
deriving DecidableEq

/-- Upstream failure of the semantic agent boundary. -/
inductive UpstreamServiceError where
  | upstreamServiceError
deriving DecidableEq

/-- The known error-type enumeration of the data model. -/
def knownErrorTypes : List String :=
  ["calculation_error", "conceptual_error", "procedural_error", "careless_mistake",
   "incomplete_answer", "unit_error", "sign_error", "decimal_error", "fraction_error",
   "order_of_operations"]

/-- Modelled from the spec: the reported score is clamped into
[0, points_possible] before use. -/
def clampPoints (raw points_possible : ℚ) : ℚ := max 0 (min raw points_possible)

/-- Validated semantic verdict. -/
structure AgentVerdict where
  points_earned : ℚ
  is_correct : Bool
  error_types : List String
deriving DecidableEq

/-- Modelled from the spec: schema validation of one raw response — a missing
response or a missing score is rejected; an accepted score is clamped into
the declared range; unknown error types are dropped. -/
def validateResponse (points_possible : ℚ) (r : Option RawAgentResponse) :
    Option AgentVerdict :=
  match r with
  | none => none
  | some resp =>
    match resp.points_earned with
    | none => none
    | some p =>
      some { points_earned := clampPoints p points_possible,
             is_correct := decide (clampPoints p points_possible = points_possible),
             error_types := resp.error_types.filter fun e => knownErrorTypes.contains e }

/-- Modelled from the spec: the semantic call with its one permitted retry;
when both responses fail validation, the boundary reports
UpstreamServiceError instead of producing any verdict. -/
def semanticCorrect (points_possible : ℚ) (first retry : Option RawAgentResponse) :
    Except UpstreamServiceError AgentVerdict :=
  match validateResponse points_possible first with
  | some v => .ok v
  | none =>
    match validateResponse points_possible retry with
    | some v => .ok v
    | none => .error .upstreamServiceError

/-- Modelled from the spec: recording of the semantic outcome — an upstream
failure is recorded for manual review with zero provisional credit; a
validated verdict is recorded as returned. -/
def recordQuestionCorrection (points_possible : ℚ)
    (res : Except UpstreamServiceError AgentVerdict) : QuestionCorrection :=
  match res with
  | .error _ =>
    { points_earned := 0, points_possible := points_possible,
      is_correct := false, needs_manual_review := true }
  | .ok v =>
    { points_earned := v.points_earned, points_possible := points_possible,
      is_correct := v.is_correct, needs_manual_review := false }

/-- The modelled semantic stage packaged as the agent argument of
`correct_question`. -/
def semanticAi (first retry : Option RawAgentResponse) :
    Question → String → QuestionCorrection :=
  fun q _ => recordQuestionCorrection q.points (semanticCorrect q.points first retry)

/-- Exam-level correction record. -/
structure Correction where
  earned_points : ℚ
  total_points : ℚ

/-- Builds the exam-level Correction by summation over the per-question
records. -/
def mkCorrection (qcs : List QuestionCorrection) : Correction :=
  { earned_points := (qcs.map QuestionCorrection.points_earned).sum,
    total_points := (qcs.map QuestionCorrection.points_possible).sum }

/-- C2: when both semantic responses (first call and permitted retry) fail
validation, the boundary raises UpstreamServiceError rather than producing a
correctness verdict, and the recorded QuestionCorrection carries the
needs_manual_review flag with points_earned zero — no score is fabricated or
defaulted. -/
theorem c2_malformed_response_manual_review (points_possible : ℚ)
    (first retry : Option RawAgentResponse)
    (h1 : validateResponse points_possible first = none)
    (h2 : validateResponse points_possible retry = none) :
    semanticCorrect points_possible first retry
      = Except.error UpstreamServiceError.upstreamServiceError ∧
    recordQuestionCorrection points_possible
        (semanticCorrect points_possible first retry)
      = { points_earned := 0, points_possible := points_possible,
          is_correct := false, needs_manual_review := true } := by
  have hs : semanticCorrect points_possible first retry
      = Except.error UpstreamServiceError.upstreamServiceError := by
    unfold semanticCorrect
    rw [h1, h2]
  refine ⟨hs, ?_⟩
  rw [hs]
  rfl

/-- Raw response with the score field missing, failing schema validation. -/
def malformedResponse : RawAgentResponse :=
  { points_earned := none, feedback := some "unparseable", step_by_step_solution := none,
    error_types := [] }

/-- Witness for C2 with an unreachable first call and a malformed retry. -/
theorem c2_malformed_response_manual_review_witness :
    semanticCorrect 5 none (some malformedResponse)
      = Except.error UpstreamServiceError.upstreamServiceError ∧
    recordQuestionCorrection 5 (semanticCorrect 5 none (some malformedResponse))
      = { points_earned := 0, points_possible := 5,
          is_correct := false, needs_manual_review := true } :=
  c2_malformed_response_manual_review 5 none (some malformedResponse) rfl rfl

theorem clampPoints_bounds (raw points_possible : ℚ) (h : 0 ≤ points_possible) :
    0 ≤ clampPoints raw points_possible ∧ clampPoints raw points_possible ≤ points_possible :=
  ⟨le_max_left 0 _, max_le h (min_le_right raw points_possible)⟩

theorem validateResponse_bounds (points_possible : ℚ) (r : Option RawAgentResponse)
    (v : AgentVerdict) (h0 : 0 ≤ points_possible)
    (h : validateResponse points_possible r = some v) :
    0 ≤ v.points_earned ∧ v.points_earned ≤ points_possible := by
  unfold validateResponse at h
  split at h
  · cases h
  · split at h
    · cases h
    · injection h with h
      subst h
      exact clampPoints_bounds _ _ h0

theorem recordQuestionCorrection_bounds (points_possible : ℚ)
    (first retry : Option RawAgentResponse) (h0 : 0 ≤ points_possible) :
    0 ≤ (recordQuestionCorrection points_possible
          (semanticCorrect points_possible first retry)).points_earned ∧
    (recordQuestionCorrection points_possible
          (semanticCorrect points_possible first retry)).points_earned
      ≤ (recordQuestionCorrection points_possible
          (semanticCorrect points_possible first retry)).points_possible := by
  unfold semanticCorrect
  cases h1 : validateResponse points_possible first with
  | some v => exact validateResponse_bounds points_possible first v h0 h1
  | none =>
    cases h2 : validateResponse points_possible retry with
    | some v => exact validateResponse_bounds points_possible retry v h0 h2
    | none => exact ⟨le_refl 0, h0⟩

theorem correct_question_semantic_bounds (tol : Frac) (q : Question) (s : String)
    (first retry : Option RawAgentResponse) (h0 : 0 ≤ q.points) :
    0 ≤ (correct_question tol (semanticAi first retry) q s).result.points_earned ∧
    (correct_question tol (semanticAi first retry) q s).result.points_earned
      ≤ (correct_question tol (semanticAi first retry) q s).result.points_possible := by
  unfold correct_question
  split
  · exact ⟨h0, le_refl _⟩
  · exact recordQuestionCorrection_bounds q.points first retry h0

/-- C4: the score is clamped into [0, points_possible] before use; every
QuestionCorrection produced by the pipeline (deterministic full credit,
validated semantic verdict, or manual-review fallback) satisfies
0 ≤ points_earned ≤ points_possible; and a Correction built from bounded
question records satisfies 0 ≤ earned_points ≤ total_points. -/
theorem c4_score_bounds (points_possible raw : ℚ) (first retry : Option RawAgentResponse)
    (tol : Frac) (q : Question) (s : String) (qcs : List QuestionCorrection)
    (hpp : 0 ≤ points_possible) (hq : 0 ≤ q.points) :
    (0 ≤ clampPoints raw points_possible
      ∧ clampPoints raw points_possible ≤ points_possible) ∧
    (0 ≤ (recordQuestionCorrection points_possible
            (semanticCorrect points_possible first retry)).points_earned ∧
      (recordQuestionCorrection points_possible
            (semanticCorrect points_possible first retry)).points_earned
        ≤ (recordQuestionCorrection points_possible
            (semanticCorrect points_possible first retry)).points_possible) ∧
    (0 ≤ (correct_question tol (semanticAi first retry) q s).result.points_earned ∧
      (correct_question tol (semanticAi first retry) q s).result.points_earned
        ≤ (correct_question tol (semanticAi first retry) q s).result.points_possible) ∧
    ((∀ qc ∈ qcs, 0 ≤ qc.points_earned ∧ qc.points_earned ≤ qc.points_possible) →
      0 ≤ (mkCorrection qcs).earned_points ∧
        (mkCorrection qcs).earned_points ≤ (mkCorrection qcs).total_points) := by
  refine ⟨clampPoints_bounds raw points_possible hpp,
    recordQuestionCorrection_bounds points_possible first retry hpp,
    correct_question_semantic_bounds tol q s first retry hq, ?_⟩
  intro hb
  constructor
  · refine List.sum_nonneg ?_
    intro x hx
    rcases List.mem_map.mp hx with ⟨qc, hqc, rfl⟩
    exact (hb qc hqc).1
  · exact List.sum_le_sum fun qc hqc => (hb qc hqc).2

/-- Raw response reporting seven points where only one is possible; it
validates to a clamped score. -/
def overclaimResponse : RawAgentResponse :=
  { points_earned := some 7, feedback := none, step_by_step_solution := none,
    error_types := ["unit_error", "unknown_kind"] }

/-- Witness for C4 at concrete inputs, the final implication discharged on a
one-element list of bounded records. -/
theorem c4_score_bounds_witness :
    (0 ≤ clampPoints 7 1 ∧ clampPoints 7 1 ≤ 1) ∧
    (0 ≤ (recordQuestionCorrection 1
            (semanticCorrect 1 (some overclaimResponse) none)).points_earned ∧
      (recordQuestionCorrection 1
            (semanticCorrect 1 (some overclaimResponse) none)).points_earned
        ≤ (recordQuestionCorrection 1
            (semanticCorrect 1 (some overclaimResponse) none)).points_possible) ∧
    (0 ≤ (correct_question defaultTol (semanticAi (some overclaimResponse) none)
            ⟨4, "42", 1⟩ "41").result.points_earned ∧
      (correct_question defaultTol (semanticAi (some overclaimResponse) none)
            ⟨4, "42", 1⟩ "41").result.points_earned
        ≤ (correct_question defaultTol (semanticAi (some overclaimResponse) none)
            ⟨4, "42", 1⟩ "41").result.points_possible) ∧
    (0 ≤ (mkCorrection [⟨0, 1, false, true⟩]).earned_points ∧
      (mkCorrection [⟨0, 1, false, true⟩]).earned_points
        ≤ (mkCorrection [⟨0, 1, false, true⟩]).total_points) := by
  have h := c4_score_bounds 1 7 (some overclaimResponse) none defaultTol
    ⟨4, "42", 1⟩ "41" [⟨0, 1, false, true⟩] zero_le_one zero_le_one
  refine ⟨h.1, h.2.1, h.2.2.1, h.2.2.2 ?_⟩
  intro qc hqc
  rcases List.mem_singleton.mp hqc with rfl
  exact ⟨le_refl 0, zero_le_one⟩

/-- Graph state touched by the correction write: the HAS_CORRECTION edges as
pairs of Correction node id and submission id, a fresh-id counter, and the
merged ErrorType reference nodes. -/
structure GraphState where
  corrections : List (Nat × Nat)
  nextCorrectionId : Nat
  errorTypeNodes : List String
deriving DecidableEq

/-- MERGE semantics for an ErrorType reference node: create only when
absent. -/
def mergeErrorType (nodes : List String) (name : String) : List String :=
  if nodes.contains name then nodes else name :: nodes

/-- Embeds the STORE CORRECTION RESULTS operations documented in the README
workflow: CREATE a Correction node, CREATE the HAS_CORRECTION edge from the
submission, MERGE the ErrorType nodes, CREATE the HAS_ERROR links.  The
documented write is unconditional — no precondition on the submission status
guards the node creation. -/
def writeCorrection (s : GraphState) (submissionId : Nat) (errorTypes : List String) :
    GraphState :=
  { corrections := (s.nextCorrectionId, submissionId) :: s.corrections,
    nextCorrectionId := s.nextCorrectionId + 1,
    errorTypeNodes := errorTypes.foldl mergeErrorType s.errorTypeNodes }

/-- Number of committed Correction nodes linked to a submission. -/
def committedCorrections (s : GraphState) (submissionId : Nat) : Nat :=
  (s.corrections.filter fun e => e.2 == submissionId).length

/-- The empty graph. -/
def emptyGraph : GraphState := ⟨[], 0, []⟩

/-- C3 counterexample: invoking the documented correction write twice for the
same submission id leaves two committed Correction nodes linked to that
submission. -/
theorem c3_counterexample :
    committedCorrections
        (writeCorrection (writeCorrection emptyGraph 7 ["unit_error"]) 7 []) 7 = 2 := by
  decide

/-- C3 (amended): the documented write path creates the Correction node and
its HAS_CORRECTION edge unconditionally, so every invocation for a submission
adds one committed Correction node — invoking it twice leaves two; at most
one committed correction per submission is not enforced by the write. -/
theorem c3_write_unconditionally_adds (s : GraphState) (submissionId : Nat)
    (errs1 errs2 : List String) :
    committedCorrections (writeCorrection s submissionId errs1) submissionId
      = committedCorrections s submissionId + 1 ∧
    committedCorrections
        (writeCorrection (writeCorrection s submissionId errs1) submissionId errs2)
        submissionId
      = committedCorrections s submissionId + 2 := by
  have h : ∀ (t : GraphState) (e : List String),
      committedCorrections (writeCorrection t submissionId e) submissionId
        = committedCorrections t submissionId + 1 := by
    intro t e
    unfold committedCorrections writeCorrection
    simp
  refine ⟨h s errs1, ?_⟩
  rw [h _ errs2, h s errs1]

/-- Question node of the vector index. -/
structure QuestionNode where
  id : Nat
  embedding : List ℚ

/-- Retrieval ranking: strictly greater similarity score first, ties broken
by ascending question id. -/
def rankRel (score : QuestionNode → ℚ) (a b : QuestionNode) : Prop :=
  score b < score a ∨ (score a = score b ∧ a.id ≤ b.id)

instance rankRelDecidable (score : QuestionNode → ℚ) : DecidableRel (rankRel score) :=
  fun _ _ => inferInstanceAs (Decidable (_ ∨ _))

/-- Modelled from the spec: `findSimilarQuestions` ranks the indexed
questions by descending similarity to the query (cosine similarity over the
vector index in the real system, kept abstract as a score function here),
ties broken by ascending question id, and returns at most the first k. -/
def findSimilarQuestions (score : QuestionNode → ℚ) (qs : List QuestionNode) (k : Nat) :
    List QuestionNode :=
  (List.insertionSort (rankRel score) qs).take k

/-- C6: for every similarity score, index content and k, the retrieval
returns at most k questions, pairwise ordered by descending score with ties
broken by ascending id, and every returned question comes from the index. -/
theorem c6_find_similar_ranked (score : QuestionNode → ℚ) (qs : List QuestionNode)
    (k : Nat) :
    (findSimilarQuestions score qs k).length ≤ k ∧
    List.Pairwise (rankRel score) (findSimilarQuestions score qs k) ∧
    ∀ x ∈ findSimilarQuestions score qs k, x ∈ qs := by
  haveI htot : IsTotal QuestionNode (rankRel score) := ⟨by
    intro a b
    rcases lt_trichotomy (score a) (score b) with h | h | h
    · exact Or.inr (Or.inl h)
    · rcases Nat.le_total a.id b.id with hid | hid
      · exact Or.inl (Or.inr ⟨h, hid⟩)
      · exact Or.inr (Or.inr ⟨h.symm, hid⟩)
    · exact Or.inl (Or.inl h)⟩
  haveI htr : IsTrans QuestionNode (rankRel score) := ⟨by
    intro a b c hab hbc
    rcases hab with hab | ⟨hab1, hab2⟩
    · rcases hbc with hbc | ⟨hbc1, _⟩
      · exact Or.inl (lt_trans hbc hab)
      · exact Or.inl (by rw [← hbc1]; exact hab)
    · rcases hbc with hbc | ⟨hbc1, hbc2⟩
      · exact Or.inl (by rw [hab1]; exact hbc)
      · exact Or.inr ⟨hab1.trans hbc1, le_trans hab2 hbc2⟩⟩
  refine ⟨?_, ?_, ?_⟩
  · exact List.length_take_le k _
  · have hs : List.Sorted (rankRel score) (List.insertionSort (rankRel score) qs) :=
      List.sorted_insertionSort _ qs
    exact hs.sublist (List.take_sublist _ _)
  · intro x hx
    exact (List.perm_insertionSort (rankRel score) qs).subset
      (List.take_subset _ _ hx)

/-- Question as entered on the exam-creation page. -/
structure ExamQuestion where
  text : String
  correct_answer : String
  points : ℚ

/-- Embeds `NewExamPage.totalPoints` from the exam page:
the fold of `(sum, q) => sum + q.points` over the questions, from zero. -/
def totalPoints (questions : List ExamQuestion) : ℚ :=
  questions.foldl (fun sum q => sum + q.points) 0

/-- C7: the exam-creation path computes total_points as the sum over all
questions of the question points. -/
theorem c7_total_points_is_sum (questions : List ExamQuestion) :
    totalPoints questions = (questions.map ExamQuestion.points).sum := by
  have h : ∀ (l : List ExamQuestion) (a : ℚ),
      l.foldl (fun sum q => sum + q.points) a = a + (l.map ExamQuestion.points).sum := by
    intro l
    induction l with
    | nil => intro a; simp
    | cons q l ih => intro a; simp [ih, add_assoc]
  simpa using h questions 0

/-- Submission list item as consumed by the submissions page: the joined
record carries an optional score and the stored submission status. -/
structure SubmissionItem where
  studentName : Option String
  examTitle : Option String
  score : Option ℚ
  status : Option String

/-- Embeds the status clause of `SubmissionsPage.filteredSubmissions`: the
filter passes when it is set to all, or set to corrected with a non-null
score, or set to pending with a null score. -/
def matchesStatus (statusFilter : String) (item : SubmissionItem) : Bool :=
  if statusFilter = "all" then true
  else if statusFilter = "corrected" then item.score.isSome
  else if statusFilter = "pending" then item.score.isNone
  else false

/-- Prefix test on character lists. -/
def isPrefixOfB : List Char → List Char → Bool
  | [], _ => true
  | _ :: _, [] => false
  | c :: cs, d :: ds => c == d && isPrefixOfB cs ds

/-- Substring test, as the JavaScript includes method. -/
def containsSub : List Char → List Char → Bool
  | [], needle => needle.isEmpty
  | c :: tl, needle => isPrefixOfB needle (c :: tl) || containsSub tl needle

/-- Character-wise ASCII lowercasing of a string. -/
def toLowerStr (s : String) : String := String.mk (s.data.map toLowerChar)

/-- Embeds the search clause of `filteredSubmissions`: the student name or
the exam title contains the query, case-insensitively; a missing field does
not match. -/
def matchesSearch (query : String) (item : SubmissionItem) : Bool :=
  (match item.studentName with
   | none => false
   | some n => containsSub (toLowerStr n).data (toLowerStr query).data) ||
  (match item.examTitle with
   | none => false
   | some t => containsSub (toLowerStr t).data (toLowerStr query).data)

/-- Embeds `SubmissionsPage.filteredSubmissions`. -/
def filteredSubmissions (subs : List SubmissionItem) (query statusFilter : String) :
    List SubmissionItem :=
  subs.filter fun item => matchesSearch query item && matchesStatus statusFilter item

/-- Embeds the page's corrected counter: the length of the filter keeping
items with a non-null score. -/
def correctedCount (subs : List SubmissionItem) : Nat :=
  (subs.filter fun s => s.score.isSome).length

/-- C9: the submissions page classifies an item as corrected exactly when its
score is non-null and as pending exactly when its score is null; the stored
status field plays no role in the status filter, so any status value other
than corrected or pending is indistinguishable from pending there; and the
corrected filter keeps exactly the searched items with a non-null score. -/
theorem c9_filter_by_score_only (item : SubmissionItem) :
    (matchesStatus "corrected" item = true ↔ item.score.isSome = true) ∧
    (matchesStatus "pending" item = true ↔ item.score.isNone = true) ∧
    (∀ f st, matchesStatus f { item with status := st } = matchesStatus f item) ∧
    (∀ (subs : List SubmissionItem) (query : String),
      filteredSubmissions subs query "corrected"
        = subs.filter fun it => matchesSearch query it && it.score.isSome) := by
  have hcor : ∀ it : SubmissionItem, matchesStatus "corrected" it = it.score.isSome := by
    intro it
    unfold matchesStatus
    rw [if_neg (by decide), if_pos rfl]
  have hpen : ∀ it : SubmissionItem, matchesStatus "pending" it = it.score.isNone := by
    intro it
    unfold matchesStatus
    rw [if_neg (by decide), if_neg (by decide), if_pos rfl]
  refine ⟨by rw [hcor item], by rw [hpen item], ?_, ?_⟩
  · intro f st
    rfl
  · intro subs query
    unfold filteredSubmissions
    refine List.filter_congr ?_
    intro it _
    rw [hcor it]

/-- Embeds the Progress component's fill percentage: the ratio times one
hundred, clamped below at zero then above at one hundred. -/
def progressPercentage (value maxVal : ℚ) : ℚ :=
  min 100 (max 0 (value / maxVal * 100))

/-- C10: for a positive max the rendered fill width is the clamped ratio —
never negative, never above one hundred, and equal to the raw percentage
whenever that value already lies in range. -/
theorem c10_progress_clamped (value maxVal : ℚ) (hm : 0 < maxVal) :
    0 ≤ progressPercentage value maxVal ∧
    progressPercentage value maxVal ≤ 100 ∧
    (0 ≤ value / maxVal * 100 → value / maxVal * 100 ≤ 100 →
      progressPercentage value maxVal = value / maxVal * 100) := by
  refine ⟨le_min (by norm_num) (le_max_left 0 _), min_le_left _ _, ?_⟩
  intro h1 h2
  unfold progressPercentage
  rw [max_eq_right h1, min_eq_right h2]

/-- Witness for C10 at value zero over max one. -/
theorem c10_progress_clamped_witness :
    0 ≤ progressPercentage 0 1 ∧
    progressPercentage 0 1 ≤ 100 ∧
    progressPercentage 0 1 = (0 : ℚ) / 1 * 100 := by
  have h := c10_progress_clamped 0 1 zero_lt_one
  have e : (0 : ℚ) / 1 * 100 = 0 := by rw [zero_div, zero_mul]
  refine ⟨h.1, h.2.1, h.2.2 ?_ ?_⟩
  · rw [e]
  · rw [e]
    simp

end GraphragExam
